import Mathlib

/-!
Verification development for the backtesting engine
(`src/infrastructure/backtester/engine.py` and
`src/infrastructure/backtester/performance_metrics.py`).

Shallow embedding conventions:
* pandas `Series` of floats are `List ℚ` when no missing value can occur,
  and `List (Option ℚ)` otherwise, with `none` standing for `NaN`.
* a pandas `DatetimeIndex` element is a `Timestamp`: its `t` field is the
  instant measured in hours (the unit the source converts to via
  `total_seconds() / 3600`), and `year` is the calendar year used by
  `groupby(index.year)`.
* element-wise arithmetic on series propagates `NaN`, aggregations
  (`mean`, `std`, `cumprod`) skip `NaN`, exactly as pandas does.
* raising an exception is modelled with `Except String`.
* `np.sqrt` forces a `ℝ` codomain for the Sharpe computations; everything
  else is executable rational arithmetic.
-/

/-- One element of a pandas `DatetimeIndex`: `t` in hours, plus the
calendar year that `index.year` extracts. -/
structure Timestamp where
  t : ℚ
  year : ℤ
deriving DecidableEq

/-- One row of the engine's dataframe, restricted to the columns
`identify_trades` reads: the index value, `Close`, `position` and
`position_change`. -/
structure Row where
  idx : Timestamp
  close : ℚ
  position : ℤ
  posChange : Option ℚ
deriving DecidableEq

/-- One emitted trade, mirroring the dict appended in `identify_trades`. -/
structure Trade where
  entry_time : Timestamp
  exit_time : Timestamp
  entry_price : ℚ
  exit_price : ℚ
  direction : String
  pnl : ℚ
deriving DecidableEq

/-- `abs` as the source's `.abs()` / `abs(...)` compute it; written as a
case split so that it evaluates by kernel reduction. -/
def qabs (q : ℚ) : ℚ := if q < 0 then -q else q

/-- NaN-propagating lift of a binary operation, as pandas element-wise
arithmetic behaves on missing values. -/
def lift2 (f : ℚ → ℚ → ℚ) : Option ℚ → Option ℚ → Option ℚ
  | some a, some b => some (f a b)
  | _, _ => none

/-- Element-wise product with NaN propagation. -/
def omul : Option ℚ → Option ℚ → Option ℚ := lift2 (· * ·)

/-- Element-wise difference with NaN propagation. -/
def osub : Option ℚ → Option ℚ → Option ℚ := lift2 (· - ·)

/-- Values of `series.shift(1)` after the leading `NaN`: element `i` of the
result is element `i - 1` of `prev :: l` (one value per remaining slot). -/
def shiftVals (prev : ℚ) : List ℚ → List ℚ
  | [] => []
  | y :: t => prev :: shiftVals y t

/-- pandas `series.shift(1)`: a leading `NaN`, then the original values
with the last one dropped.  Length is preserved. -/
def shift1 : List ℚ → List (Option ℚ)
  | [] => []
  | x :: t => none :: (shiftVals x t).map some

/-- Values of `series.pct_change()` after the leading `NaN`:
`pctVals prev l` is `[l₀/prev - 1, l₁/l₀ - 1, …]`. -/
def pctVals (prev : ℚ) : List ℚ → List ℚ
  | [] => []
  | y :: t => (y / prev - 1) :: pctVals y t

/-- pandas `close.pct_change()`: leading `NaN`, then period returns. -/
def pctChange : List ℚ → List (Option ℚ)
  | [] => []
  | c :: t => none :: (pctVals c t).map some

/-- Values of `position.diff().abs()` after the leading `NaN`:
`diffVals prev l` is `[|l₀ - prev|, |l₁ - l₀|, …]` (as floats). -/
def diffVals (prev : ℤ) : List ℤ → List ℚ
  | [] => []
  | y :: t => qabs ((y : ℚ) - (prev : ℚ)) :: diffVals y t

/-- pandas `position.diff().abs()`: leading `NaN`, then absolute
position changes. -/
def diffAbs : List ℤ → List (Option ℚ)
  | [] => []
  | p :: t => none :: (diffVals p t).map some

/-- `df['effective_position']` from `engine.backtest`:
`(position * position_size).shift(1)` when the `position_size` column is
present, else `position.shift(1)`. -/
def effectivePosition (position : List ℤ) (position_size : Option (List ℚ)) :
    List (Option ℚ) :=
  match position_size with
  | some sz => shift1 (List.zipWith (fun (p : ℤ) (s : ℚ) => (p : ℚ) * s) position sz)
  | none => shift1 (position.map (fun (p : ℤ) => (p : ℚ)))

/-- `df['net_returns']` from `engine.backtest`: strategy returns
(`effective_position * returns`) minus trading costs
(`position.diff().abs() * cost`), all NaN-propagating. -/
def netReturnsOf (close : List ℚ) (position : List ℤ)
    (position_size : Option (List ℚ)) (cost : ℚ) : List (Option ℚ) :=
  List.zipWith osub
    (List.zipWith omul (effectivePosition position position_size) (pctChange close))
    ((diffAbs position).map (Option.map (· * cost)))

/-- The rows of the dataframe handed to `identify_trades`: index, `Close`,
`position` and the engine-computed `position_change` column. -/
def buildRows : List Timestamp → List ℚ → List ℤ → List (Option ℚ) → List Row
  | t :: ts, c :: cs, p :: ps, ch :: chs => ⟨t, c, p, ch⟩ :: buildRows ts cs ps chs
  | _, _, _, _ => []

/-- The dataframe rows as `engine.backtest` prepares them. -/
def rowsOf (index : List Timestamp) (close : List ℚ) (position : List ℤ) :
    List Row :=
  buildRows index close position (diffAbs position)

/-- The scan state of the `identify_trades` loop: the loop-local variables
`in_position`, `entry_price`, `entry_direction`, `entry_time` (initialised
to `None` in the source) plus the accumulated `trades` list. -/
structure ScanState where
  in_position : Bool
  entry_price : Option ℚ
  entry_direction : Option ℤ
  entry_time : Option Timestamp
  trades : List Trade
deriving DecidableEq

/-- State before the first iteration of the `identify_trades` loop. -/
def initState : ScanState :=
  { in_position := false, entry_price := none, entry_direction := none,
    entry_time := none, trades := [] }

/-- One iteration of the `identify_trades` row loop. -/
def tradeStep (s : ScanState) (r : Row) : ScanState :=
  if s.in_position = false ∧ r.position ≠ 0 then
    -- Entering a position (from 0 to 1 or -1)
    { s with in_position := true, entry_price := some r.close,
             entry_direction := some r.position, entry_time := some r.idx }
  else if s.in_position = true ∧
      (r.position = 0 ∨ (r.position ≠ 0 ∧ some r.position ≠ s.entry_direction)) then
    -- Exiting a position (from 1/-1 to 0 or flipping)
    let entry := s.entry_price.getD 0
    let pnl :=
      if s.entry_direction = some 1 then (r.close - entry) / entry
      else (entry - r.close) / entry
    let t : Trade :=
      { entry_time := s.entry_time.getD r.idx, exit_time := r.idx,
        entry_price := entry, exit_price := r.close,
        direction := if s.entry_direction = some 1 then "Long" else "Short",
        pnl := pnl }
    if r.position ≠ 0 then
      -- If flipping (not exiting to 0), immediately enter new position
      { in_position := true, entry_price := some r.close,
        entry_direction := some r.position, entry_time := some r.idx,
        trades := s.trades ++ [t] }
    else
      { s with in_position := false, trades := s.trades ++ [t] }
  else s

/-- The filter `data['position_change'] > 0` (False on `NaN`, as in
pandas). -/
def changePred (r : Row) : Bool :=
  match r.posChange with
  | some c => decide (0 < c)
  | none => false

/-- `performance_metrics.identify_trades`: early-return of an empty log
when no row has a positive `position_change`, else the stateful scan. -/
def identify_trades (data : List Row) : List Trade :=
  let change_points := data.filter changePred
  if change_points.isEmpty then []
  else (data.foldl tradeStep initState).trades


/-- The non-missing values of a series, in order (what pandas skips to in
`mean`, `std`, …). -/
def valsOf (l : List (Option ℚ)) : List ℚ := l.filterMap id

/-- pandas `series.mean()` with `skipna` semantics: `NaN` on an all-missing
series (in particular on an empty one). -/
def omean (l : List (Option ℚ)) : Option ℚ :=
  if (valsOf l).length = 0 then none
  else some ((valsOf l).sum / ((valsOf l).length : ℚ))

/-- pandas `series.var()` (`ddof = 1`): `NaN` when fewer than two
non-missing observations. -/
def ovar (l : List (Option ℚ)) : Option ℚ :=
  if (valsOf l).length < 2 then none
  else
    some ((((valsOf l).map
        (fun x => (x - (valsOf l).sum / ((valsOf l).length : ℚ)) ^ 2)).sum) /
      (((valsOf l).length : ℚ) - 1))

/- `series.std()` is `Real.sqrt` of `ovar`; the source only ever compares
it to `0` and divides by it, so `ovar` carries all the decidable content. -/

/-- Tail of pandas `series.cummax()` with accumulator `m`. -/
def cummaxVals (m : ℚ) : List ℚ → List ℚ
  | [] => []
  | x :: t => max m x :: cummaxVals (max m x) t

/-- pandas `series.cummax()`. -/
def cummax : List ℚ → List ℚ
  | [] => []
  | x :: t => x :: cummaxVals x t

/-- The drawdown series `(equity - running_max) / running_max` used in
`calculate_max_drawdown` and `calculate_yearly_metrics`. -/
def drawdownList (equity : List ℚ) : List ℚ :=
  List.zipWith (fun e m => (e - m) / m) equity (cummax equity)

/-- pandas `series.min()`: `NaN` on an empty series. -/
def listMin : List ℚ → Option ℚ
  | [] => none
  | x :: t => some (t.foldl min x)

/-- Tail of pandas `series.cumprod()` (skipna): missing entries stay
missing, the running product `acc` continues across them. -/
def cumprodAux (acc : ℚ) : List (Option ℚ) → List (Option ℚ)
  | [] => []
  | none :: t => none :: cumprodAux acc t
  | some x :: t => some (acc * x) :: cumprodAux (acc * x) t

/-- `series.fillna(1.0)`. -/
def fillna1 (l : List (Option ℚ)) : List ℚ := l.map (fun o => o.getD 1)

/-- The equity curve of `calculate_all_metrics`:
`(1 + net_returns).cumprod()` followed by `fillna(1.0)`. -/
def equityCurveOf (net_returns : List (Option ℚ)) : List ℚ :=
  fillna1 (cumprodAux 1 (net_returns.map (Option.map (fun r => 1 + r))))

/-- Insertion of one value into a sorted list (helper for the median). -/
def sortedInsert (x : ℚ) : List ℚ → List ℚ
  | [] => [x]
  | y :: t => if x ≤ y then x :: y :: t else y :: sortedInsert x t

/-- Sorting, as the median computation needs it. -/
def insertionSort : List ℚ → List ℚ
  | [] => []
  | x :: t => sortedInsert x (insertionSort t)

/-- pandas `series.median()` on a non-empty series: middle element of the
sorted values, or the average of the two middle elements. -/
def median (l : List ℚ) : ℚ :=
  let s := insertionSort l
  if s.length % 2 = 1 then s.getD (s.length / 2) 0
  else (s.getD (s.length / 2 - 1) 0 + s.getD (s.length / 2) 0) / 2

/-- `performance_metrics.infer_frequency`: median consecutive gap of the
index (in hours — `Timestamp.t` already carries hours, matching the
source's `total_seconds() / 3600`), bucketed into an annualisation
factor; `365` for an index with fewer than two entries. -/
def infer_frequency (index : List Timestamp) : ℕ :=
  if index.length < 2 then 365
  else
    let hours := median ((index.zip index.tail).map (fun p => p.2.t - p.1.t))
    if hours ≤ 1 then 8760
    else if hours ≤ 4 then 2190
    else if hours ≤ 24 then 365
    else if hours ≤ 168 then 52
    else 12

/-- `performance_metrics.calculate_total_return`: `equity.iloc[-1] - 1`;
Python raises an `IndexError` on an empty curve, modelled as `.error`. -/
def calculate_total_return (equity_curve : List ℚ) : Except String ℚ :=
  match equity_curve.getLast? with
  | some v => .ok (v - 1)
  | none => .error "single positional indexer is out-of-bounds"

/-- `performance_metrics.calculate_sharpe_ratio`.  `std == 0` can only
hold when the variance is `some 0` (a `NaN` std compares unequal to `0`
and then poisons the quotient, yielding `NaN` = `none`). -/
noncomputable def calculate_sharpe_ratio (returns : List (Option ℚ))
    (periods_per_year : ℕ) : Option ℝ :=
  if returns.length < 2 then some 0
  else
    match omean returns, ovar returns with
    | some m, some v =>
      if v = 0 then some 0
      else some (((m : ℝ) / Real.sqrt (v : ℝ)) * Real.sqrt (periods_per_year : ℝ))
    | _, _ => none

/-- `performance_metrics.calculate_max_drawdown`: minimum of the drawdown
series (`NaN` on an empty curve). -/
def calculate_max_drawdown (equity_curve : List ℚ) : Option ℚ :=
  listMin (drawdownList equity_curve)

/-- `performance_metrics.calculate_win_rate`. -/
def calculate_win_rate (trades_df : List Trade) : ℚ :=
  if trades_df.length = 0 then 0
  else ((trades_df.filter (fun t => decide (0 < t.pnl))).length : ℚ) /
    (trades_df.length : ℚ)

/-- `performance_metrics.calculate_num_trades`. -/
def calculate_num_trades (trades_df : List Trade) : ℕ := trades_df.length

/-- `performance_metrics.calculate_avg_win_loss_ratio`. -/
def calculate_avg_win_loss_ratio (trades_df : List Trade) : ℚ :=
  if trades_df.length = 0 then 0
  else
    let winning := (trades_df.filter (fun t => decide (0 < t.pnl))).map Trade.pnl
    let losing := (trades_df.filter (fun t => decide (t.pnl < 0))).map Trade.pnl
    if winning.length = 0 ∨ losing.length = 0 then 0
    else (winning.sum / (winning.length : ℚ)) /
      qabs (losing.sum / (losing.length : ℚ))

/-- `performance_metrics.calculate_profit_factor`; `⊤` models `np.inf`. -/
def calculate_profit_factor (trades_df : List Trade) : WithTop ℚ :=
  if trades_df.length = 0 then 0
  else
    let gross_profit := ((trades_df.filter (fun t => decide (0 < t.pnl))).map Trade.pnl).sum
    let gross_loss := qabs ((trades_df.filter (fun t => decide (t.pnl < 0))).map Trade.pnl).sum
    if gross_loss = 0 then (if 0 < gross_profit then ⊤ else 0)
    else ((gross_profit / gross_loss : ℚ) : WithTop ℚ)

/-- `performance_metrics.calculate_calmar_ratio`; a `NaN` max drawdown
(empty series) compares unequal to `0` and yields a `NaN` ratio. -/
def calculate_calmar_ratio (total_return : ℚ) (max_drawdown : Option ℚ) :
    Option ℚ :=
  if max_drawdown = some 0 then some 0
  else max_drawdown.map (fun d => total_return / qabs d)

/-- The year-sliced sub-series: values whose index entry falls in calendar
year `y`, in order — pandas `groupby(index.year).get_group(y)`. -/
def sliceByYear {α : Type} (index : List Timestamp) (vals : List α) (y : ℤ) :
    List α :=
  ((index.zip vals).filter (fun p => p.1.year == y)).map (fun p => p.2)

/-- The three per-year dictionaries returned by
`calculate_yearly_metrics`, as functions from the year (`none` when the
year is absent from the index). -/
structure YearlyMetrics where
  yearly_returns : ℤ → Option ℚ
  yearly_sharpe : ℤ → Option ℝ
  yearly_max_drawdown : ℤ → Option ℚ

/-- `performance_metrics.calculate_yearly_metrics`: per calendar year,
`(end - start)/start` on the year's equity slice, a Sharpe with an
`std > 0` guard (so a `NaN` std falls back to `0.0`), and the drawdown
minimum recomputed on the year's own equity slice. -/
noncomputable def calculate_yearly_metrics (returns : List (Option ℚ))
    (equity_curve : List ℚ) (index : List Timestamp) (periods_per_year : ℕ) :
    YearlyMetrics where
  yearly_returns := fun y =>
    match sliceByYear index equity_curve y with
    | [] => none
    | h :: t => some ((t.getLastD h - h) / h)
  yearly_sharpe := fun y =>
    match sliceByYear index returns y with
    | [] => none
    | r :: t =>
      match omean (r :: t), ovar (r :: t) with
      | some m, some v =>
        some (if 0 < v then ((m : ℝ) / Real.sqrt (v : ℝ)) *
          Real.sqrt (periods_per_year : ℝ) else 0)
      | _, _ => some 0
  yearly_max_drawdown := fun y =>
    listMin (drawdownList (sliceByYear index equity_curve y))

/-- The dict returned by `calculate_all_metrics` (the Report). -/
structure Metrics where
  total_return : ℚ
  sharpe_ratio : Option ℝ
  max_drawdown : Option ℚ
  win_rate : ℚ
  num_trades : ℕ
  avg_win_loss_ratio : ℚ
  profit_factor : WithTop ℚ
  calmar_ratio : Option ℚ
  yearly_returns : ℤ → Option ℚ
  yearly_sharpe : ℤ → Option ℝ
  yearly_max_drawdown : ℤ → Option ℚ
  cost_percent : ℚ
  equity_curve : List ℚ
  trades : List Trade

/-- `performance_metrics.calculate_all_metrics`.  The only mid-stream
exception Python can raise on validated input is the `IndexError` of
`calculate_total_return` on an empty frame, modelled by the `match`. -/
noncomputable def calculate_all_metrics (index : List Timestamp)
    (data : List Row) (net_returns : List (Option ℚ)) (cost : ℚ) :
    Except String Metrics :=
  let equity_curve := equityCurveOf net_returns
  let periods_per_year := infer_frequency index
  let trades_df := identify_trades data
  match calculate_total_return equity_curve with
  | .error e => .error e
  | .ok total_return =>
    let yearly_metrics :=
      calculate_yearly_metrics net_returns equity_curve index periods_per_year
    .ok
      { total_return := total_return
        sharpe_ratio := calculate_sharpe_ratio net_returns periods_per_year
        max_drawdown := calculate_max_drawdown equity_curve
        win_rate := calculate_win_rate trades_df
        num_trades := calculate_num_trades trades_df
        avg_win_loss_ratio := calculate_avg_win_loss_ratio trades_df
        profit_factor := calculate_profit_factor trades_df
        calmar_ratio := calculate_calmar_ratio total_return
          (calculate_max_drawdown equity_curve)
        yearly_returns := yearly_metrics.yearly_returns
        yearly_sharpe := yearly_metrics.yearly_sharpe
        yearly_max_drawdown := yearly_metrics.yearly_max_drawdown
        cost_percent := cost
        equity_curve := equity_curve
        trades := trades_df }

/-- The engine's input dataframe: the index plus the optional columns
`backtest` looks at (`none` = column absent; a pandas DataFrame forces all
present columns to share the index's length). -/
structure BTData where
  index : List Timestamp
  close : Option (List ℚ)
  position : Option (List ℤ)
  position_size : Option (List ℚ)

/-- `engine.backtest` (the rendering arguments are the excluded
collaborators and carry no data back into the result). -/
noncomputable def backtest (data : BTData) (cost : ℚ) : Except String Metrics :=
  match data.close, data.position with
  | none, _ => .error "Data must have 'Close' column"
  | some _, none => .error "Data must have 'position' column (1=long, 0=flat, -1=short)"
  | some close, some position =>
    calculate_all_metrics data.index
      (rowsOf data.index close position)
      (netReturnsOf close position data.position_size cost)
      cost

/-- The running products that `cumprodAux` threads along: a proof-side
companion of the pandas `cumprod`. -/
def scanMul (a : ℚ) : List ℚ → List ℚ
  | [] => []
  | x :: t => (a * x) :: scanMul (a * x) t

/-- The DataFrame well-formedness a pandas input enforces by construction:
if a `position_size` column is present it has the index's length. -/
def sizesWF (position : List ℤ) : Option (List ℚ) → Prop
  | none => True
  | some sz => sz.length = position.length

/-- Specification-side counter (from the spec's words): the number of
position transitions that close a position — entering flat from a
non-zero position, or flipping directly between distinct non-zero
directions — along a position path whose previous value is `prev`. -/
def closingTransitions (prev : ℤ) : List ℤ → ℕ
  | [] => 0
  | p :: t => (if prev ≠ 0 ∧ p ≠ prev then 1 else 0) + closingTransitions p t

/-- The loop invariant of the `identify_trades` scan: after processing a
prefix whose last position is `p`, the machine is in a position iff
`p ≠ 0`, and then its recorded direction is `p`. -/
def InvAt (s : ScanState) (p : ℤ) : Prop :=
  (s.in_position = true ↔ p ≠ 0) ∧ (p ≠ 0 → s.entry_direction = some p)

/-- The shape every emitted pnl has: the bare price ratio of exit to
entry, long or short, never scaled by any position size. -/
def pnl_consistent (t : Trade) : Prop :=
  (t.direction = "Long" → t.pnl = (t.exit_price - t.entry_price) / t.entry_price) ∧
  (t.direction = "Short" → t.pnl = (t.entry_price - t.exit_price) / t.entry_price)


/-! ### Helper lemmas -/

lemma qabs_eq_abs (q : ℚ) : qabs q = |q| := by
  unfold qabs
  by_cases h : q < 0
  · rw [if_pos h, abs_of_neg h]
  · rw [if_neg h, abs_of_nonneg (le_of_not_lt h)]

lemma qabs_eq_zero {q : ℚ} : qabs q = 0 ↔ q = 0 := by
  rw [qabs_eq_abs]; exact abs_eq_zero

lemma qabs_pos {q : ℚ} (h : q ≠ 0) : 0 < qabs q := by
  rw [qabs_eq_abs]; exact abs_pos.mpr h

lemma shiftVals_length (l : List ℚ) : ∀ prev, (shiftVals prev l).length = l.length := by
  induction l with
  | nil => intro prev; rfl
  | cons y t ih => intro prev; simp [shiftVals, ih]

lemma shift1_length (l : List ℚ) : (shift1 l).length = l.length := by
  cases l with
  | nil => rfl
  | cons x t => simp [shift1, shiftVals_length]

lemma pctVals_length (l : List ℚ) : ∀ prev, (pctVals prev l).length = l.length := by
  induction l with
  | nil => intro prev; rfl
  | cons y t ih => intro prev; simp [pctVals, ih]

lemma pctChange_length (l : List ℚ) : (pctChange l).length = l.length := by
  cases l with
  | nil => rfl
  | cons c t => simp [pctChange, pctVals_length]

lemma diffVals_length (l : List ℤ) : ∀ prev, (diffVals prev l).length = l.length := by
  induction l with
  | nil => intro prev; rfl
  | cons y t ih => intro prev; simp [diffVals, ih]

lemma diffAbs_length (l : List ℤ) : (diffAbs l).length = l.length := by
  cases l with
  | nil => rfl
  | cons p t => simp [diffAbs, diffVals_length]

lemma cummaxVals_length (l : List ℚ) : ∀ m, (cummaxVals m l).length = l.length := by
  induction l with
  | nil => intro m; rfl
  | cons x t ih => intro m; simp [cummaxVals, ih]

lemma cummax_length (l : List ℚ) : (cummax l).length = l.length := by
  cases l with
  | nil => rfl
  | cons x t => simp [cummax, cummaxVals_length]

lemma zipWith_getD {α β γ : Type} (f : α → β → γ) (as : List α) :
    ∀ (bs : List β) (i : ℕ), i < as.length → i < bs.length →
    ∀ (d : γ) (da : α) (db : β),
      (List.zipWith f as bs).getD i d = f (as.getD i da) (bs.getD i db) := by
  induction as with
  | nil => intro bs i h; simp at h
  | cons a at' ih =>
    intro bs i ha hb d da db
    cases bs with
    | nil => simp at hb
    | cons b bt =>
      cases i with
      | zero => rfl
      | succ j =>
        simp only [List.zipWith_cons_cons, List.getD_cons_succ]
        exact ih bt j (by simpa using ha) (by simpa using hb) d da db

lemma map_some_getD (l : List ℚ) : ∀ (i : ℕ), i < l.length →
    ∀ (d : Option ℚ), (l.map some).getD i d = some (l.getD i 0) := by
  induction l with
  | nil => intro i h; simp at h
  | cons x t ih =>
    intro i h d
    cases i with
    | zero => rfl
    | succ j => simpa using ih j (by simpa using h) d

lemma shiftVals_getD (l : List ℚ) : ∀ (prev : ℚ) (i : ℕ), i < l.length →
    (shiftVals prev l).getD i 0 = (prev :: l).getD i 0 := by
  induction l with
  | nil => intro prev i h; simp at h
  | cons y t ih =>
    intro prev i h
    cases i with
    | zero => rfl
    | succ j => simpa [shiftVals] using ih y j (by simpa using h)

lemma shift1_getD (l : List ℚ) (i : ℕ) (h : i + 1 < l.length) (d : Option ℚ) :
    (shift1 l).getD (i + 1) d = some (l.getD i 0) := by
  cases l with
  | nil => simp at h
  | cons x t =>
    have ht : i < t.length := by simpa using h
    have h' : i < (shiftVals x t).length := by rw [shiftVals_length]; exact ht
    calc (shift1 (x :: t)).getD (i + 1) d
        = ((shiftVals x t).map some).getD i d := rfl
      _ = some ((shiftVals x t).getD i 0) := map_some_getD _ i h' d
      _ = some ((x :: t).getD i 0) := by rw [shiftVals_getD t x i ht]

lemma zipWith_lift2_map_some (f : ℚ → ℚ → ℚ) (as : List ℚ) :
    ∀ (bs : List ℚ),
      List.zipWith (lift2 f) (as.map some) (bs.map some) =
        (List.zipWith f as bs).map some := by
  induction as with
  | nil => intro bs; simp
  | cons a at' ih =>
    intro bs
    cases bs with
    | nil => simp
    | cons b bt => simp [lift2, ih bt]

lemma scanMul_length (l : List ℚ) : ∀ a, (scanMul a l).length = l.length := by
  induction l with
  | nil => intro a; rfl
  | cons x t ih => intro a; simp [scanMul, ih]

lemma cumprodAux_map_some (vs : List ℚ) : ∀ a,
    cumprodAux a (vs.map some) = (scanMul a vs).map some := by
  induction vs with
  | nil => intro a; rfl
  | cons x t ih => intro a; simp [cumprodAux, scanMul, ih]

lemma scanMul_getD (ws : List ℚ) : ∀ (a : ℚ) (i : ℕ), i < ws.length →
    (scanMul a ws).getD i 0 = a * ((ws.take (i + 1)).prod) := by
  induction ws with
  | nil => intro a i h; simp at h
  | cons x t ih =>
    intro a i h
    cases i with
    | zero => simp [scanMul]
    | succ j =>
      have := ih (a * x) j (by simpa using h)
      simp only [scanMul, List.getD_cons_succ, List.take_succ_cons, List.prod_cons]
      rw [this]; ring

lemma equityCurveOf_cons_form (vs : List ℚ) :
    equityCurveOf (none :: vs.map some) =
      1 :: scanMul 1 (vs.map (fun r => 1 + r)) := by
  unfold equityCurveOf
  simp only [List.map_cons, Option.map_none', List.map_map]
  have hcomp : (Option.map (fun r => (1:ℚ) + r)) ∘ some = some ∘ (fun r => 1 + r) := by
    funext x; rfl
  rw [hcomp, ← List.map_map]
  simp only [cumprodAux, cumprodAux_map_some]
  unfold fillna1
  simp only [List.map_cons, Option.getD_none, List.map_map]
  have hid : ((fun o : Option ℚ => o.getD 1) ∘ some) = id := by funext x; rfl
  rw [hid, List.map_id]

lemma effectivePosition_form (p : ℤ) (pt : List ℤ) (psz : Option (List ℚ))
    (hwf : sizesWF (p :: pt) psz) :
    ∃ es : List ℚ, effectivePosition (p :: pt) psz = none :: es.map some := by
  cases psz with
  | none => exact ⟨shiftVals (p : ℚ) (pt.map (fun (q : ℤ) => (q : ℚ))), rfl⟩
  | some sz =>
    cases sz with
    | nil => simp [sizesWF] at hwf
    | cons s st =>
      exact ⟨shiftVals ((p : ℚ) * s)
        (List.zipWith (fun (q : ℤ) (r : ℚ) => (q : ℚ) * r) pt st), rfl⟩

lemma map_optionMap_map_some (f : ℚ → ℚ) (D : List ℚ) :
    (D.map some).map (Option.map f) = (D.map f).map some := by
  rw [List.map_map, List.map_map]
  congr 1

lemma netReturnsOf_form (c : ℚ) (ct : List ℚ) (p : ℤ) (pt : List ℤ)
    (psz : Option (List ℚ)) (cost : ℚ) (hwf : sizesWF (p :: pt) psz) :
    ∃ vs : List ℚ,
      netReturnsOf (c :: ct) (p :: pt) psz cost = none :: vs.map some := by
  obtain ⟨es, he⟩ := effectivePosition_form p pt psz hwf
  refine ⟨List.zipWith (· - ·)
      (List.zipWith (· * ·) es (pctVals c ct))
      ((diffVals p pt).map (· * cost)), ?_⟩
  unfold netReturnsOf
  rw [he]
  show List.zipWith osub
      (List.zipWith omul (none :: es.map some) (none :: (pctVals c ct).map some))
      ((none :: (diffVals p pt).map some).map (Option.map (· * cost))) = _
  simp only [List.zipWith_cons_cons, List.map_cons, Option.map_none']
  unfold omul osub
  rw [zipWith_lift2_map_some, map_optionMap_map_some, zipWith_lift2_map_some]
  rfl

lemma equity_getD_prod (vs : List ℚ) :
    (equityCurveOf (none :: vs.map some)).getD 0 0 = 1 ∧
    ∀ i, i < (equityCurveOf (none :: vs.map some)).length →
      (equityCurveOf (none :: vs.map some)).getD i 0 =
        (((none :: vs.map some).take (i + 1)).map
          (fun o => o.elim 1 (fun r => 1 + r))).prod := by
  rw [equityCurveOf_cons_form]
  refine ⟨rfl, ?_⟩
  intro i hi
  cases i with
  | zero => simp
  | succ j =>
    have hj : j < vs.length := by
      have h1 : (scanMul 1 (vs.map (fun r => (1:ℚ) + r))).length = vs.length := by
        rw [scanMul_length, List.length_map]
      simp only [List.length_cons, h1] at hi
      omega
    have hj' : j < (vs.map (fun r => (1:ℚ) + r)).length := by
      rw [List.length_map]; exact hj
    simp only [List.getD_cons_succ]
    rw [scanMul_getD _ 1 j hj', one_mul]
    have htake : (none :: vs.map some).take (j + 2) =
        none :: ((vs.take (j + 1)).map some) := by
      simp [List.map_take]
    rw [htake]
    have hmap : ((none :: ((vs.take (j + 1)).map some)).map
        (fun o => o.elim 1 (fun r => (1 : ℚ) + r))) =
        1 :: (vs.take (j + 1)).map (fun r => 1 + r) := by
      rw [List.map_cons, List.map_map]
      rfl
    rw [hmap, List.prod_cons, one_mul, List.map_take]

/-- C4: for every valid non-empty input, the equity curve is the running
product of `(1 + net_return)` where the undefined leading slot is forced
to contribute exactly `1.0`; in particular its first value is `1.0`.
(The positivity hypothesis keeps the rational embedding on the domain
where it agrees with float pandas: no division by a zero close.) -/
theorem c4_equity_curve_running_product (cs : List ℚ) (ps : List ℤ)
    (psz : Option (List ℚ)) (cost : ℚ) (hcs : cs ≠ []) (hps : ps ≠ [])
    (hwf : sizesWF ps psz) (hclose : ∀ c ∈ cs, 0 < c) :
    (equityCurveOf (netReturnsOf cs ps psz cost)).getD 0 0 = 1 ∧
    ∀ i, i < (equityCurveOf (netReturnsOf cs ps psz cost)).length →
      (equityCurveOf (netReturnsOf cs ps psz cost)).getD i 0 =
        (((netReturnsOf cs ps psz cost).take (i + 1)).map
          (fun o => o.elim 1 (fun r => 1 + r))).prod := by
  cases cs with
  | nil => exact absurd rfl hcs
  | cons c ct =>
    cases ps with
    | nil => exact absurd rfl hps
    | cons p pt =>
      obtain ⟨vs, hv⟩ := netReturnsOf_form c ct p pt psz cost hwf
      rw [hv]
      exact equity_getD_prod vs

/-- C4 witness: the theorem applied to the two-bar always-long input. -/
theorem c4_equity_curve_witness :
    (equityCurveOf (netReturnsOf [100, 110] [1, 1] none 0)).getD 0 0 = 1 :=
  (c4_equity_curve_running_product [100, 110] [1, 1] none 0
    (by simp) (by simp) trivial (by norm_num)).1

lemma getLast?_cons_some (x : ℚ) (l : List ℚ) :
    ∃ v, (x :: l).getLast? = some v := by
  induction l generalizing x with
  | nil => exact ⟨x, rfl⟩
  | cons y t ih =>
    obtain ⟨v, hv⟩ := ih y
    exact ⟨v, by rw [List.getLast?_cons_cons]; exact hv⟩

lemma backtest_ok (d : BTData) (cost : ℚ) (cs : List ℚ) (ps : List ℤ)
    (hc : d.close = some cs) (hp : d.position = some ps)
    (hcs : cs ≠ []) (hps : ps ≠ []) (hwf : sizesWF ps d.position_size) :
    ∃ m, backtest d cost = .ok m := by
  obtain ⟨idx, dcl, dpos, dpsz⟩ := d
  simp only at hc hp hwf
  subst hc hp
  cases cs with
  | nil => exact absurd rfl hcs
  | cons c ct =>
    cases ps with
    | nil => exact absurd rfl hps
    | cons p pt =>
      obtain ⟨vs, hv⟩ := netReturnsOf_form c ct p pt dpsz cost hwf
      have heq : equityCurveOf (netReturnsOf (c :: ct) (p :: pt) dpsz cost) =
          1 :: scanMul 1 (vs.map (fun r => 1 + r)) := by
        rw [hv, equityCurveOf_cons_form]
      obtain ⟨v, hlast⟩ :=
        getLast?_cons_some 1 (scanMul 1 (vs.map (fun r => 1 + r)))
      cases hx : calculate_all_metrics idx (rowsOf idx (c :: ct) (p :: pt))
          (netReturnsOf (c :: ct) (p :: pt) dpsz cost) cost with
      | ok m => exact ⟨m, hx⟩
      | error e =>
        exfalso
        simp only [calculate_all_metrics, calculate_total_return] at hx
        rw [heq, hlast] at hx
        simp at hx

/-- C2 (amended): the public entry point validates only the presence of
the `Close` and `position` columns, failing fast with the descriptive
errors of the source; inputs with non-monotonic timestamps or a
`position_size` outside `(0, 1]` are not rejected — for any such input
with both columns present and a non-empty frame the engine still returns
a complete report. -/
theorem c2_validation_amended :
    (∀ (d : BTData) (cost : ℚ), d.close = none →
        backtest d cost = .error "Data must have 'Close' column") ∧
    (∀ (d : BTData) (cost : ℚ) (cs : List ℚ), d.close = some cs →
        d.position = none →
        backtest d cost =
          .error "Data must have 'position' column (1=long, 0=flat, -1=short)") ∧
    (∀ (d : BTData) (cost : ℚ) (cs : List ℚ) (ps : List ℤ),
        d.close = some cs → d.position = some ps → cs ≠ [] → ps ≠ [] →
        sizesWF ps d.position_size → ∃ m, backtest d cost = .ok m) := by
  refine ⟨?_, ?_, ?_⟩
  · intro d cost hc
    obtain ⟨idx, dcl, dpos, dpsz⟩ := d
    simp only at hc
    subst hc
    rfl
  · intro d cost cs hc hp
    obtain ⟨idx, dcl, dpos, dpsz⟩ := d
    simp only at hc hp
    subst hc hp
    rfl
  · intro d cost cs ps hc hp hcs hps hwf
    exact backtest_ok d cost cs ps hc hp hcs hps hwf

/-- C2 witness: the theorem applied to an input missing the `Close`
column and to a well-formed two-bar input. -/
theorem c2_validation_witness :
    backtest ⟨[⟨0, 2020⟩], none, none, none⟩ 0 =
      .error "Data must have 'Close' column" ∧
    ∃ m, backtest ⟨[⟨0, 2020⟩, ⟨1, 2020⟩], some [100, 110], some [1, 0], none⟩ 0 =
      .ok m :=
  ⟨c2_validation_amended.1 _ 0 rfl,
   c2_validation_amended.2.2 _ 0 [100, 110] [1, 0] rfl rfl (by simp) (by simp)
     trivial⟩

/-- C2 counterexample: an input whose timestamps are not increasing and
whose `position_size` values lie outside `(0, 1]` is not rejected — the
entry point completes and returns a report, so the claimed
input-validation error is never raised. -/
theorem c2_counterexample_no_validation :
    (∃ m, backtest
        ⟨[⟨5, 2021⟩, ⟨3, 2021⟩], some [100, 50], some [1, 0], some [2, 2]⟩ 0 =
      .ok m) ∧
    ¬ ((⟨5, 2021⟩ : Timestamp).t < (⟨3, 2021⟩ : Timestamp).t) ∧
    ¬ ((2 : ℚ) ≤ 1) := by
  refine ⟨?_, by norm_num, by norm_num⟩
  exact backtest_ok _ 0 [100, 50] [1, 0] rfl rfl (by simp) (by simp)
    (by simp [sizesWF])

lemma initState_inv : InvAt initState 0 := by
  constructor
  · simp [initState]
  · intro h; exact absurd rfl h

lemma tradeStep_count (s : ScanState) (prev : ℤ) (r : Row) (h : InvAt s prev) :
    (tradeStep s r).trades.length =
      s.trades.length + (if prev ≠ 0 ∧ r.position ≠ prev then 1 else 0) ∧
    InvAt (tradeStep s r) r.position := by
  obtain ⟨h1, h2⟩ := h
  by_cases hp : prev = 0
  · -- previously flat: the machine is out of position
    have hout : s.in_position = false := by
      cases hb : s.in_position
      · rfl
      · exact absurd (h1.mp hb) (by simp [hp])
    by_cases hr : r.position = 0
    · -- flat to flat: nothing fires
      have hc1 : ¬ (s.in_position = false ∧ r.position ≠ 0) := by
        intro hc; exact hc.2 hr
      have hc2 : ¬ (s.in_position = true ∧
          (r.position = 0 ∨ (r.position ≠ 0 ∧ some r.position ≠ s.entry_direction))) := by
        intro hc; rw [hout] at hc; exact Bool.false_ne_true hc.1
      rw [tradeStep, if_neg hc1, if_neg hc2]
      refine ⟨by simp [hp, hr], ⟨?_, ?_⟩⟩
      · rw [hout]; simp [hr]
      · intro hcon; exact absurd hr hcon
    · -- flat to a position: the entry transition fires, no trade emitted
      have hc1 : s.in_position = false ∧ r.position ≠ 0 := ⟨hout, hr⟩
      rw [tradeStep, if_pos hc1]
      exact ⟨by simp [hp], by simp [hr], fun _ => rfl⟩
  · -- previously in a position with direction `prev`
    have hin : s.in_position = true := h1.mpr hp
    have hdir : s.entry_direction = some prev := h2 hp
    have hc1 : ¬ (s.in_position = false ∧ r.position ≠ 0) := by
      intro hc; rw [hin] at hc; exact Bool.false_ne_true hc.1.symm
    by_cases hr : r.position = prev
    · -- unchanged position: no transition fires
      have hrne : r.position ≠ 0 := by rw [hr]; exact hp
      have hc2 : ¬ (s.in_position = true ∧
          (r.position = 0 ∨ (r.position ≠ 0 ∧ some r.position ≠ s.entry_direction))) := by
        rintro ⟨-, hor⟩
        rcases hor with h0 | ⟨-, hne⟩
        · exact hrne h0
        · rw [hdir, hr] at hne; exact hne rfl
      rw [tradeStep, if_neg hc1, if_neg hc2]
      refine ⟨by simp [hr], h1.trans (by rw [hr]), fun h => (h2 hp).trans (by rw [hr])⟩
    · -- the exit (or flip) transition fires and emits exactly one trade
      have hc2 : s.in_position = true ∧
          (r.position = 0 ∨ (r.position ≠ 0 ∧ some r.position ≠ s.entry_direction)) := by
        refine ⟨hin, ?_⟩
        by_cases hr0 : r.position = 0
        · exact Or.inl hr0
        · refine Or.inr ⟨hr0, ?_⟩
          rw [hdir]
          intro hsome
          exact hr (Option.some_injective ℤ hsome)
      rw [tradeStep, if_neg hc1, if_pos hc2]
      by_cases hr0 : r.position = 0
      · rw [if_neg (by simpa using hr0)]
        refine ⟨by simp [hp, hr], by simp [hr0], fun h => absurd hr0 h⟩
      · rw [if_pos hr0]
        exact ⟨by simp [hp, hr], by simp [hr0], fun _ => rfl⟩

lemma foldl_trades (data : List Row) : ∀ (s : ScanState) (prev : ℤ),
    InvAt s prev →
    (data.foldl tradeStep s).trades.length =
      s.trades.length + closingTransitions prev (data.map (fun r => r.position)) ∧
    InvAt (data.foldl tradeStep s)
      ((data.map (fun r => r.position)).getLastD prev) := by
  induction data with
  | nil => intro s prev h; exact ⟨by simp [closingTransitions], h⟩
  | cons r t ih =>
    intro s prev h
    obtain ⟨hlen, hinv⟩ := tradeStep_count s prev r h
    obtain ⟨hlen', hinv'⟩ := ih (tradeStep s r) r.position hinv
    refine ⟨?_, ?_⟩
    · simp only [List.foldl_cons, List.map_cons, closingTransitions]
      rw [hlen', hlen]
      omega
    · simp only [List.foldl_cons, List.map_cons, List.getLastD_cons]
      exact hinv'

lemma buildRows_map_position (ps : List ℤ) :
    ∀ (idx : List Timestamp) (cs : List ℚ) (chs : List (Option ℚ)),
    ps.length ≤ idx.length → ps.length ≤ cs.length → ps.length ≤ chs.length →
    (buildRows idx cs ps chs).map (fun r => r.position) = ps := by
  induction ps with
  | nil =>
    intro idx cs chs _ _ _
    cases idx <;> cases cs <;> cases chs <;> rfl
  | cons p pt ih =>
    intro idx cs chs h1 h2 h3
    cases idx with
    | nil => simp at h1
    | cons i it =>
      cases cs with
      | nil => simp at h2
      | cons c ct =>
        cases chs with
        | nil => simp at h3
        | cons ch cht =>
          simp only [buildRows, List.map_cons]
          rw [ih it ct cht (by simpa using h1) (by simpa using h2)
            (by simpa using h3)]

lemma rowsOf_map_position (idx : List Timestamp) (cs : List ℚ) (ps : List ℤ)
    (h1 : ps.length ≤ idx.length) (h2 : ps.length ≤ cs.length) :
    (rowsOf idx cs ps).map (fun r => r.position) = ps :=
  buildRows_map_position ps idx cs (diffAbs ps) h1 h2 (by rw [diffAbs_length])

lemma rowsOf_length (idx : List Timestamp) (cs : List ℚ) (ps : List ℤ)
    (h1 : ps.length ≤ idx.length) (h2 : ps.length ≤ cs.length) :
    (rowsOf idx cs ps).length = ps.length := by
  have := congrArg List.length (rowsOf_map_position idx cs ps h1 h2)
  simpa using this

lemma noChange_closingTransitions (ps : List ℤ) :
    ∀ (prev : ℤ) (idx : List Timestamp) (cs : List ℚ),
    (buildRows idx cs ps ((diffVals prev ps).map some)).filter changePred = [] →
    ps.length ≤ idx.length → ps.length ≤ cs.length →
    closingTransitions prev ps = 0 := by
  induction ps with
  | nil => intro prev idx cs _ _ _; rfl
  | cons p pt ih =>
    intro prev idx cs hfil h1 h2
    cases idx with
    | nil => simp at h1
    | cons i it =>
      cases cs with
      | nil => simp at h2
      | cons c ct =>
        simp only [diffVals, List.map_cons, buildRows] at hfil
        rw [List.filter_cons] at hfil
        by_cases hch : changePred ⟨i, c, p, some (qabs ((p : ℚ) - (prev : ℚ)))⟩ = true
        · rw [if_pos hch] at hfil; exact absurd hfil (by simp)
        · rw [if_neg hch] at hfil
          have hpq : p = prev := by
            simp only [changePred, decide_eq_true_eq] at hch
            have habs : qabs ((p : ℚ) - (prev : ℚ)) = 0 := by
              by_contra hne
              exact hch (lt_of_le_of_ne (by rw [qabs_eq_abs]; exact abs_nonneg _)
                (Ne.symm hne))
            have : ((p : ℚ) - (prev : ℚ)) = 0 := qabs_eq_zero.mp habs
            exact_mod_cast sub_eq_zero.mp this
          subst hpq
          have hrec := ih p it ct hfil (by simpa using h1) (by simpa using h2)
          simp [closingTransitions, hrec]

/-- C6: the number of trades emitted by `identify_trades` on the
engine-built rows equals exactly the number of position transitions that
close a position (to flat, or a direct flip); an open position at the end
of the series contributes nothing, and a change-free path yields an empty
log (`closingTransitions 0 ps = 0` then). -/
theorem c6_trade_count_closing_transitions (idx : List Timestamp)
    (cs : List ℚ) (ps : List ℤ)
    (h1 : idx.length = ps.length) (h2 : cs.length = ps.length) :
    (identify_trades (rowsOf idx cs ps)).length = closingTransitions 0 ps := by
  unfold identify_trades
  by_cases hfil : ((rowsOf idx cs ps).filter changePred).isEmpty
  · rw [if_pos hfil]
    cases ps with
    | nil => rfl
    | cons p pt =>
      cases idx with
      | nil => simp at h1
      | cons i it =>
        cases cs with
        | nil => simp at h2
        | cons c ct =>
          rw [List.isEmpty_iff] at hfil
          have hfil' : (buildRows it ct pt ((diffVals p pt).map some)).filter
              changePred = [] := by
            have : rowsOf (i :: it) (c :: ct) (p :: pt) =
                ⟨i, c, p, none⟩ :: buildRows it ct pt ((diffVals p pt).map some) := rfl
            rw [this, List.filter_cons] at hfil
            by_cases hch : changePred ⟨i, c, p, none⟩ = true
            · simp [changePred] at hch
            · rwa [if_neg hch] at hfil
          have h0 := noChange_closingTransitions pt p it ct hfil'
            (by simp at h1; omega) (by simp at h2; omega)
          simp [closingTransitions, h0]
  · rw [if_neg hfil]
    obtain ⟨hlen, -⟩ :=
      foldl_trades (rowsOf idx cs ps) initState 0 initState_inv
    rw [hlen, rowsOf_map_position idx cs ps (le_of_eq h1.symm) (le_of_eq h2.symm)]
    simp [initState]

/-- C6 witness: the theorem applied to a three-bar long-then-flat path. -/
theorem c6_trade_count_witness :
    (identify_trades (rowsOf [⟨0, 2020⟩, ⟨1, 2020⟩, ⟨2, 2020⟩]
      [100, 101, 102] [0, 1, 0])).length = closingTransitions 0 [0, 1, 0] :=
  c6_trade_count_closing_transitions _ _ _ rfl rfl

lemma getLastD_take (l : List ℤ) : ∀ (k : ℕ) (d : ℤ), 1 ≤ k → k ≤ l.length →
    (l.take k).getLastD d = l.getD (k - 1) 0 := by
  induction l with
  | nil => intro k d h1 h2; simp at h2; omega
  | cons x t ih =>
    intro k d h1 h2
    cases k with
    | zero => omega
    | succ j =>
      cases j with
      | zero => simp
      | succ j' =>
        rw [List.take_succ_cons, List.getLastD_cons]
        have := ih (j' + 1) x (by omega) (by simpa using h2)
        rw [this]
        rfl

lemma take_succ_getD {α : Type} (l : List α) : ∀ (k : ℕ) (d : α),
    k < l.length → l.take (k + 1) = l.take k ++ [l.getD k d] := by
  induction l with
  | nil => intro k d h; simp at h
  | cons x t ih =>
    intro k d h
    cases k with
    | zero => simp
    | succ j =>
      rw [List.take_succ_cons, List.take_succ_cons, ih j d (by simpa using h)]
      rfl

lemma buildRows_getD (ps : List ℤ) :
    ∀ (idx : List Timestamp) (cs : List ℚ) (chs : List (Option ℚ)) (k : ℕ)
      (dflt : Row),
    k < ps.length → ps.length ≤ idx.length → ps.length ≤ cs.length →
    ps.length ≤ chs.length →
    (buildRows idx cs ps chs).getD k dflt =
      ⟨idx.getD k ⟨0, 0⟩, cs.getD k 0, ps.getD k 0, chs.getD k none⟩ := by
  induction ps with
  | nil => intro idx cs chs k dflt hk _ _ _; simp at hk
  | cons p pt ih =>
    intro idx cs chs k dflt hk h1 h2 h3
    cases idx with
    | nil => simp at h1
    | cons i it =>
      cases cs with
      | nil => simp at h2
      | cons c ct =>
        cases chs with
        | nil => simp at h3
        | cons ch cht =>
          cases k with
          | zero => rfl
          | succ j =>
            simp only [buildRows, List.getD_cons_succ]
            exact ih it ct cht j dflt (by simpa using hk) (by simpa using h1)
              (by simpa using h2) (by simpa using h3)

lemma tradeStep_flip (s : ScanState) (r : Row) (hin : s.in_position = true)
    (hcur : r.position ≠ 0) (hne : some r.position ≠ s.entry_direction) :
    tradeStep s r =
      { in_position := true, entry_price := some r.close,
        entry_direction := some r.position, entry_time := some r.idx,
        trades := s.trades ++
          [{ entry_time := s.entry_time.getD r.idx, exit_time := r.idx,
             entry_price := s.entry_price.getD 0, exit_price := r.close,
             direction := if s.entry_direction = some 1 then "Long" else "Short",
             pnl := if s.entry_direction = some 1
               then (r.close - s.entry_price.getD 0) / s.entry_price.getD 0
               else (s.entry_price.getD 0 - r.close) / s.entry_price.getD 0 }] } := by
  rw [tradeStep,
    if_neg (by rw [hin]; rintro ⟨hb, -⟩; exact Bool.false_ne_true hb.symm),
    if_pos ⟨hin, Or.inr ⟨hcur, hne⟩⟩, if_pos hcur]

lemma diffVals_getD (l : List ℤ) : ∀ (prev : ℤ) (j : ℕ), j < l.length →
    (diffVals prev l).getD j 0 =
      qabs ((l.getD j 0 : ℚ) - ((prev :: l).getD j 0 : ℚ)) := by
  induction l with
  | nil => intro prev j h; simp at h
  | cons y t ih =>
    intro prev j h
    cases j with
    | zero => rfl
    | succ j' => simpa [diffVals] using ih y j' (by simpa using h)

lemma diffAbs_getD (ps : List ℤ) (k : ℕ) (h1 : 1 ≤ k) (h : k < ps.length) :
    (diffAbs ps).getD k none =
      some (qabs ((ps.getD k 0 : ℚ) - (ps.getD (k - 1) 0 : ℚ))) := by
  obtain ⟨j, rfl⟩ : ∃ j, k = j + 1 := ⟨k - 1, by omega⟩
  cases ps with
  | nil => simp at h
  | cons p t =>
    have ht : j < t.length := by simpa using h
    show ((diffVals p t).map some).getD j none = _
    rw [map_some_getD _ j (by rw [diffVals_length]; exact ht) none,
      diffVals_getD t p j ht]
    simp

lemma getD_mem {α : Type} (l : List α) : ∀ (k : ℕ) (d : α), k < l.length →
    l.getD k d ∈ l := by
  induction l with
  | nil => intro k d h; simp at h
  | cons x t ih =>
    intro k d h
    cases k with
    | zero => simp
    | succ j =>
      simp only [List.getD_cons_succ]
      exact List.mem_cons_of_mem x (ih j d (by simpa using h))

/-- C5: at a direct flip (both neighbouring positions non-zero and
distinct), the reconstructor runs its scan (a flip defeats the
empty-log early return), and processing the flip bar appends exactly one
completed trade — closing the old direction at that bar's close and
timestamp — and leaves the machine atomically re-entered in the new
direction with the same bar's close and timestamp as entry: one
exit/entry pair at one bar, never two. -/
theorem c5_flip_single_exit_entry (idx : List Timestamp) (cs : List ℚ)
    (ps : List ℤ) (k : ℕ)
    (h1 : idx.length = ps.length) (h2 : cs.length = ps.length)
    (hk1 : 1 ≤ k) (hk : k < ps.length)
    (hprev : ps.getD (k - 1) 0 ≠ 0) (hcur : ps.getD k 0 ≠ 0)
    (hflip : ps.getD k 0 ≠ ps.getD (k - 1) 0) :
    identify_trades (rowsOf idx cs ps) =
      ((rowsOf idx cs ps).foldl tradeStep initState).trades ∧
    ∃ t : Trade,
      List.foldl tradeStep initState ((rowsOf idx cs ps).take (k + 1)) =
        { in_position := true, entry_price := some (cs.getD k 0),
          entry_direction := some (ps.getD k 0),
          entry_time := some (idx.getD k ⟨0, 0⟩),
          trades := (List.foldl tradeStep initState
            ((rowsOf idx cs ps).take k)).trades ++ [t] } ∧
      t.exit_time = idx.getD k ⟨0, 0⟩ ∧ t.exit_price = cs.getD k 0 ∧
      t.direction = (if ps.getD (k - 1) 0 = 1 then "Long" else "Short") ∧
      t.pnl = (if ps.getD (k - 1) 0 = 1
        then (cs.getD k 0 - t.entry_price) / t.entry_price
        else (t.entry_price - cs.getD k 0) / t.entry_price) := by
  have hrl : (rowsOf idx cs ps).length = ps.length :=
    rowsOf_length idx cs ps (le_of_eq h1.symm) (le_of_eq h2.symm)
  have hrowk : (rowsOf idx cs ps).getD k ⟨⟨0, 0⟩, 0, 0, none⟩ =
      ⟨idx.getD k ⟨0, 0⟩, cs.getD k 0, ps.getD k 0, (diffAbs ps).getD k none⟩ :=
    buildRows_getD ps idx cs (diffAbs ps) k _ hk (le_of_eq h1.symm)
      (le_of_eq h2.symm) (le_of_eq (diffAbs_length ps).symm)
  have hchg : changePred ⟨idx.getD k ⟨0, 0⟩, cs.getD k 0, ps.getD k 0,
      (diffAbs ps).getD k none⟩ = true := by
    rw [diffAbs_getD ps k hk1 hk]
    simp only [changePred, decide_eq_true_eq]
    exact qabs_pos (sub_ne_zero.mpr
      (fun hEq => hflip (by exact_mod_cast hEq)))
  have hmem : (⟨idx.getD k ⟨0, 0⟩, cs.getD k 0, ps.getD k 0,
      (diffAbs ps).getD k none⟩ : Row) ∈
      (rowsOf idx cs ps).filter changePred := by
    refine List.mem_filter.mpr ⟨?_, hchg⟩
    rw [← hrowk]
    exact getD_mem _ k _ (by rw [hrl]; exact hk)
  have hident : identify_trades (rowsOf idx cs ps) =
      ((rowsOf idx cs ps).foldl tradeStep initState).trades := by
    have hne : (rowsOf idx cs ps).filter changePred ≠ [] := by
      intro hEmp
      rw [hEmp] at hmem
      simp at hmem
    simp only [identify_trades]
    rw [if_neg (by simpa [List.isEmpty_iff] using hne)]
  refine ⟨hident, ?_⟩
  obtain ⟨-, hinv⟩ :=
    foldl_trades ((rowsOf idx cs ps).take k) initState 0 initState_inv
  have hmapk : ((rowsOf idx cs ps).take k).map (fun r => r.position) =
      ps.take k := by
    rw [List.map_take,
      rowsOf_map_position idx cs ps (le_of_eq h1.symm) (le_of_eq h2.symm)]
  rw [hmapk, getLastD_take ps k 0 hk1 (le_of_lt hk)] at hinv
  obtain ⟨hiff, hdir⟩ := hinv
  have hin : (List.foldl tradeStep initState
      ((rowsOf idx cs ps).take k)).in_position = true := hiff.mpr hprev
  have hdir' : (List.foldl tradeStep initState
      ((rowsOf idx cs ps).take k)).entry_direction =
      some (ps.getD (k - 1) 0) := hdir hprev
  have hsplit : (rowsOf idx cs ps).take (k + 1) =
      (rowsOf idx cs ps).take k ++ [(rowsOf idx cs ps).getD k ⟨⟨0, 0⟩, 0, 0, none⟩] :=
    take_succ_getD _ k _ (by rw [hrl]; exact hk)
  rw [hsplit, List.foldl_append, List.foldl_cons, List.foldl_nil, hrowk]
  rw [tradeStep_flip _ _ hin hcur
    (by rw [hdir']; intro hs; exact hflip (Option.some_injective ℤ hs))]
  rw [hdir']
  refine ⟨_, rfl, rfl, rfl, ?_, ?_⟩
  · by_cases hone : ps.getD (k - 1) 0 = 1 <;> simp [hone]
  · by_cases hone : ps.getD (k - 1) 0 = 1 <;> simp [hone]

/-- C5 witness: the theorem applied to the direct flip `[1, -1]` at flat
prices. -/
theorem c5_flip_witness :
    identify_trades (rowsOf [⟨0, 2020⟩, ⟨1, 2020⟩] [100, 100] [1, -1]) =
      ((rowsOf [⟨0, 2020⟩, ⟨1, 2020⟩] [100, 100] [1, -1]).foldl tradeStep
        initState).trades ∧
    ∃ t : Trade,
      List.foldl tradeStep initState
          ((rowsOf [⟨0, 2020⟩, ⟨1, 2020⟩] [100, 100] [1, -1]).take (1 + 1)) =
        { in_position := true,
          entry_price := some (([100, 100] : List ℚ).getD 1 0),
          entry_direction := some (([1, -1] : List ℤ).getD 1 0),
          entry_time := some (([⟨0, 2020⟩, ⟨1, 2020⟩] : List Timestamp).getD 1 ⟨0, 0⟩),
          trades := (List.foldl tradeStep initState
            ((rowsOf [⟨0, 2020⟩, ⟨1, 2020⟩] [100, 100] [1, -1]).take 1)).trades
            ++ [t] } ∧
      t.exit_time = ([⟨0, 2020⟩, ⟨1, 2020⟩] : List Timestamp).getD 1 ⟨0, 0⟩ ∧
      t.exit_price = ([100, 100] : List ℚ).getD 1 0 ∧
      t.direction = (if ([1, -1] : List ℤ).getD (1 - 1) 0 = 1 then "Long" else "Short") ∧
      t.pnl = (if ([1, -1] : List ℤ).getD (1 - 1) 0 = 1
        then (([100, 100] : List ℚ).getD 1 0 - t.entry_price) / t.entry_price
        else (t.entry_price - ([100, 100] : List ℚ).getD 1 0) / t.entry_price) :=
  c5_flip_single_exit_entry [⟨0, 2020⟩, ⟨1, 2020⟩] [100, 100] [1, -1] 1
    rfl rfl (le_refl 1) (by decide) (by decide) (by decide) (by decide)

lemma mkTrade_pnl_consistent (s : ScanState) (r : Row) :
    pnl_consistent
      { entry_time := s.entry_time.getD r.idx, exit_time := r.idx,
        entry_price := s.entry_price.getD 0, exit_price := r.close,
        direction := if s.entry_direction = some 1 then "Long" else "Short",
        pnl := if s.entry_direction = some 1
          then (r.close - s.entry_price.getD 0) / s.entry_price.getD 0
          else (s.entry_price.getD 0 - r.close) / s.entry_price.getD 0 } := by
  by_cases hone : s.entry_direction = some 1
  · exact ⟨fun _ => by simp [hone], fun hd => by simp [hone] at hd⟩
  · exact ⟨fun hd => by simp [hone] at hd, fun _ => by simp [hone]⟩

lemma tradeStep_trades_cases (s : ScanState) (r : Row) :
    (tradeStep s r).trades = s.trades ∨
    (tradeStep s r).trades = s.trades ++
      [{ entry_time := s.entry_time.getD r.idx, exit_time := r.idx,
         entry_price := s.entry_price.getD 0, exit_price := r.close,
         direction := if s.entry_direction = some 1 then "Long" else "Short",
         pnl := if s.entry_direction = some 1
           then (r.close - s.entry_price.getD 0) / s.entry_price.getD 0
           else (s.entry_price.getD 0 - r.close) / s.entry_price.getD 0 }] := by
  rw [tradeStep]
  by_cases hc1 : s.in_position = false ∧ r.position ≠ 0
  · rw [if_pos hc1]; exact Or.inl rfl
  · rw [if_neg hc1]
    by_cases hc2 : s.in_position = true ∧
        (r.position = 0 ∨ (r.position ≠ 0 ∧ some r.position ≠ s.entry_direction))
    · rw [if_pos hc2]
      by_cases hr : r.position ≠ 0
      · rw [if_pos hr]; exact Or.inr rfl
      · rw [if_neg hr]; exact Or.inr rfl
    · rw [if_neg hc2]; exact Or.inl rfl

lemma foldl_pnl (data : List Row) : ∀ (s : ScanState),
    (∀ t ∈ s.trades, pnl_consistent t) →
    ∀ t ∈ (data.foldl tradeStep s).trades, pnl_consistent t := by
  induction data with
  | nil => intro s h; exact h
  | cons r rest ih =>
    intro s h
    apply ih
    intro t ht
    rcases tradeStep_trades_cases s r with hcase | hcase
    · rw [hcase] at ht; exact h t ht
    · rw [hcase] at ht
      rcases List.mem_append.mp ht with hold | hnew
      · exact h t hold
      · rw [List.mem_singleton.mp hnew]
        exact mkTrade_pnl_consistent s r

lemma identify_trades_pnl (data : List Row) :
    ∀ t ∈ identify_trades data, pnl_consistent t := by
  intro t ht
  unfold identify_trades at ht
  by_cases hf : (data.filter changePred).isEmpty
  · rw [if_pos hf] at ht; simp at ht
  · rw [if_neg hf] at ht
    exact foldl_pnl data initState (by intro t' ht'; simp [initState] at ht') t ht

lemma cumprodAux_length (l : List (Option ℚ)) : ∀ a,
    (cumprodAux a l).length = l.length := by
  induction l with
  | nil => intro a; rfl
  | cons o t ih => intro a; cases o <;> simp [cumprodAux, ih]

lemma equityCurveOf_length (l : List (Option ℚ)) :
    (equityCurveOf l).length = l.length := by
  unfold equityCurveOf fillna1
  rw [List.length_map, cumprodAux_length, List.length_map]

lemma calc_map_trades (idx : List Timestamp) (data : List Row)
    (net : List (Option ℚ)) (cost : ℚ) :
    Except.map Metrics.trades (calculate_all_metrics idx data net cost) =
      if net = [] then .error "single positional indexer is out-of-bounds"
      else .ok (identify_trades data) := by
  cases net with
  | nil => rfl
  | cons o t =>
    rw [if_neg (by simp)]
    have hne : equityCurveOf (o :: t) ≠ [] := by
      intro h
      have := congrArg List.length h
      rw [equityCurveOf_length] at this
      simp at this
    obtain ⟨x, xs, hx⟩ := List.exists_cons_of_ne_nil hne
    obtain ⟨v, hv⟩ := getLast?_cons_some x xs
    simp only [calculate_all_metrics, calculate_total_return]
    rw [hx, hv]
    rfl

lemma netReturnsOf_length (cs : List ℚ) (ps : List ℤ) (psz : Option (List ℚ))
    (cost : ℚ) (hwf : sizesWF ps psz) :
    (netReturnsOf cs ps psz cost).length = min ps.length cs.length := by
  unfold netReturnsOf
  rw [List.length_zipWith, List.length_zipWith, List.length_map,
    diffAbs_length, pctChange_length]
  have heff : (effectivePosition ps psz).length = ps.length := by
    unfold effectivePosition
    cases psz with
    | none => rw [shift1_length, List.length_map]
    | some sz =>
      rw [shift1_length, List.length_zipWith]
      simp only [sizesWF] at hwf
      omega
  rw [heff]
  omega

/-- C10: the trade log is invariant under changes of the position-size
column alone (equal timestamps, closes and position directions), and
every emitted trade's pnl is the bare entry/exit price ratio of its
direction — position size never scales it. -/
theorem c10_trades_independent_of_size :
    (∀ (d1 d2 : BTData) (cost : ℚ),
      d1.index = d2.index → d1.close = d2.close → d1.position = d2.position →
      (∀ ps, d1.position = some ps → sizesWF ps d1.position_size) →
      (∀ ps, d2.position = some ps → sizesWF ps d2.position_size) →
      Except.map Metrics.trades (backtest d1 cost) =
        Except.map Metrics.trades (backtest d2 cost)) ∧
    (∀ (data : List Row), ∀ t ∈ identify_trades data, pnl_consistent t) := by
  constructor
  · intro d1 d2 cost hidx hcl hpos hwf1 hwf2
    obtain ⟨idx1, cl1, po1, sz1⟩ := d1
    obtain ⟨idx2, cl2, po2, sz2⟩ := d2
    simp only at hidx hcl hpos hwf1 hwf2
    subst hidx hcl hpos
    cases cl1 with
    | none => rfl
    | some cs =>
      cases po1 with
      | none => rfl
      | some ps =>
        show Except.map Metrics.trades (calculate_all_metrics idx1
            (rowsOf idx1 cs ps) (netReturnsOf cs ps sz1 cost) cost) =
          Except.map Metrics.trades (calculate_all_metrics idx1
            (rowsOf idx1 cs ps) (netReturnsOf cs ps sz2 cost) cost)
        rw [calc_map_trades, calc_map_trades]
        have hl1 := netReturnsOf_length cs ps sz1 cost (hwf1 ps rfl)
        have hl2 := netReturnsOf_length cs ps sz2 cost (hwf2 ps rfl)
        by_cases hmin : min ps.length cs.length = 0
        · have h1 : netReturnsOf cs ps sz1 cost = [] :=
            List.length_eq_zero.mp (by rw [hl1, hmin])
          have h2' : netReturnsOf cs ps sz2 cost = [] :=
            List.length_eq_zero.mp (by rw [hl2, hmin])
          rw [if_pos h1, if_pos h2']
        · have h1 : netReturnsOf cs ps sz1 cost ≠ [] := by
            intro h
            rw [h] at hl1
            exact hmin (by simpa using hl1.symm)
          have h2' : netReturnsOf cs ps sz2 cost ≠ [] := by
            intro h
            rw [h] at hl2
            exact hmin (by simpa using hl2.symm)
          rw [if_neg h1, if_neg h2']
  · exact identify_trades_pnl

/-- C10 witness: the theorem applied to two one-bar inputs differing only
in position size. -/
theorem c10_trades_independent_witness :
    Except.map Metrics.trades
        (backtest ⟨[⟨0, 2020⟩], some [100], some [1], some [1]⟩ 0) =
      Except.map Metrics.trades
        (backtest ⟨[⟨0, 2020⟩], some [100], some [1], some [1/2]⟩ 0) :=
  c10_trades_independent_of_size.1 _ _ 0 rfl rfl rfl
    (fun ps hps => by cases hps; rfl) (fun ps hps => by cases hps; rfl)

lemma omean_of_ovar (l : List (Option ℚ)) (v : ℚ) (h : ovar l = some v) :
    ∃ m, omean l = some m := by
  by_cases hle : (valsOf l).length < 2
  · rw [ovar, if_pos hle] at h
    exact absurd h (by simp)
  · unfold omean
    rw [if_neg (by omega)]
    exact ⟨_, rfl⟩

/-- C7: the Sharpe guards of the source — `0` on a series of fewer than
two entries, `0` on zero variance (`std == 0`), and otherwise the
annualised mean-over-std quotient. -/
theorem c7_sharpe_guards (returns : List (Option ℚ)) (ppy : ℕ) :
    (returns.length < 2 → calculate_sharpe_ratio returns ppy = some 0) ∧
    (ovar returns = some 0 → calculate_sharpe_ratio returns ppy = some 0) ∧
    (2 ≤ returns.length → ∀ v : ℚ, ovar returns = some v → v ≠ 0 →
      ∃ m : ℚ, omean returns = some m ∧
        calculate_sharpe_ratio returns ppy =
          some (((m : ℝ) / Real.sqrt (v : ℝ)) * Real.sqrt (ppy : ℝ))) := by
  refine ⟨?_, ?_, ?_⟩
  · intro h
    unfold calculate_sharpe_ratio
    rw [if_pos h]
  · intro hv
    unfold calculate_sharpe_ratio
    by_cases hlen : returns.length < 2
    · rw [if_pos hlen]
    · rw [if_neg hlen]
      obtain ⟨m, hm⟩ := omean_of_ovar returns 0 hv
      rw [hm, hv]
      simp
  · intro hlen v hv hvne
    obtain ⟨m, hm⟩ := omean_of_ovar returns v hv
    refine ⟨m, hm, ?_⟩
    unfold calculate_sharpe_ratio
    rw [if_neg (by omega), hm, hv]
    simp [hvne]

/-- C7 witness: the theorem applied to a one-entry series. -/
theorem c7_sharpe_witness : calculate_sharpe_ratio [some 1] 365 = some 0 :=
  (c7_sharpe_guards [some 1] 365).1 (by simp)

lemma sum_neg_of_all_neg {l : List ℚ} (h : ∀ x ∈ l, x < 0) (hne : l ≠ []) :
    l.sum < 0 := by
  induction l with
  | nil => exact absurd rfl hne
  | cons x t ih =>
    rw [List.sum_cons]
    rcases eq_or_ne t [] with rfl | htne
    · simpa using h x (by simp)
    · have hx := h x (by simp)
      have ht := ih (fun y hy => h y (by simp [hy])) htne
      linarith

lemma sum_pos_of_all_pos {l : List ℚ} (h : ∀ x ∈ l, 0 < x) (hne : l ≠ []) :
    0 < l.sum := by
  induction l with
  | nil => exact absurd rfl hne
  | cons x t ih =>
    rw [List.sum_cons]
    rcases eq_or_ne t [] with rfl | htne
    · simpa using h x (by simp)
    · have hx := h x (by simp)
      have ht := ih (fun y hy => h y (by simp [hy])) htne
      linarith

/-- C8: the profit-factor policy — `0` on an empty log; with no losing
trade, `⊤` (`np.inf`) when a winning trade exists and `0` otherwise; and
the gross-profit over absolute-gross-loss quotient whenever a losing
trade exists.  The function is total: no input raises. -/
theorem c8_profit_factor_policy (trades : List Trade) :
    (trades = [] → calculate_profit_factor trades = 0) ∧
    ((∀ t ∈ trades, ¬ t.pnl < 0) → (∃ t ∈ trades, 0 < t.pnl) →
      calculate_profit_factor trades = ⊤) ∧
    ((∀ t ∈ trades, ¬ t.pnl < 0) → (∀ t ∈ trades, ¬ 0 < t.pnl) →
      calculate_profit_factor trades = 0) ∧
    ((∃ t ∈ trades, t.pnl < 0) →
      calculate_profit_factor trades =
        ((((trades.filter (fun t => decide (0 < t.pnl))).map Trade.pnl).sum /
          qabs (((trades.filter (fun t => decide (t.pnl < 0))).map Trade.pnl).sum)
          : ℚ) : WithTop ℚ)) := by
  have hfneg : (∀ t ∈ trades, ¬ t.pnl < 0) →
      trades.filter (fun t => decide (t.pnl < 0)) = [] := by
    intro h
    simp only [List.filter_eq_nil_iff]
    intro a ha
    simpa using h a ha
  refine ⟨?_, ?_, ?_, ?_⟩
  · intro h
    subst h
    rfl
  · intro hnoneg hexpos
    obtain ⟨t0, ht0m, ht0p⟩ := hexpos
    have hne : trades ≠ [] := by rintro rfl; simp at ht0m
    simp only [calculate_profit_factor]
    rw [if_neg (by simpa [List.length_eq_zero] using hne), hfneg hnoneg]
    have hgl : qabs (([] : List Trade).map Trade.pnl).sum = 0 := by
      simp [qabs]
    rw [hgl, if_pos rfl]
    have hpos : 0 < ((trades.filter (fun t => decide (0 < t.pnl))).map Trade.pnl).sum := by
      apply sum_pos_of_all_pos
      · intro x hx
        obtain ⟨u, hu, hux⟩ := List.mem_map.mp hx
        have := (List.mem_filter.mp hu).2
        rw [← hux]
        simpa using this
      · have : t0 ∈ trades.filter (fun t => decide (0 < t.pnl)) :=
          List.mem_filter.mpr ⟨ht0m, by simpa using ht0p⟩
        intro hmapnil
        rw [List.map_eq_nil_iff] at hmapnil
        rw [hmapnil] at this
        simp at this
    rw [if_pos hpos]
  · intro hnoneg hnopos
    rcases eq_or_ne trades [] with rfl | hne
    · rfl
    · simp only [calculate_profit_factor]
      rw [if_neg (by simpa [List.length_eq_zero] using hne), hfneg hnoneg]
      have hfpos : trades.filter (fun t => decide (0 < t.pnl)) = [] := by
        simp only [List.filter_eq_nil_iff]
        intro a ha
        simpa using hnopos a ha
      rw [hfpos]
      have hgl : qabs (([] : List Trade).map Trade.pnl).sum = 0 := by
        simp [qabs]
      rw [hgl, if_pos rfl]
      simp
  · intro hexneg
    obtain ⟨t0, ht0m, ht0n⟩ := hexneg
    have hne : trades ≠ [] := by rintro rfl; simp at ht0m
    simp only [calculate_profit_factor]
    rw [if_neg (by simpa [List.length_eq_zero] using hne)]
    have hglneg : ((trades.filter (fun t => decide (t.pnl < 0))).map Trade.pnl).sum < 0 := by
      apply sum_neg_of_all_neg
      · intro x hx
        obtain ⟨u, hu, hux⟩ := List.mem_map.mp hx
        have := (List.mem_filter.mp hu).2
        rw [← hux]
        simpa using this
      · have : t0 ∈ trades.filter (fun t => decide (t.pnl < 0)) :=
          List.mem_filter.mpr ⟨ht0m, by simpa using ht0n⟩
        intro hmapnil
        rw [List.map_eq_nil_iff] at hmapnil
        rw [hmapnil] at this
        simp at this
    rw [if_neg (by rw [qabs_eq_abs]; exact ne_of_gt (abs_pos.mpr (ne_of_lt hglneg)))]

/-- C8 witness: the theorem applied to an empty log and to a
one-winner/one-loser log. -/
theorem c8_profit_factor_witness :
    calculate_profit_factor [] = 0 ∧
    calculate_profit_factor
      [⟨⟨0, 2020⟩, ⟨1, 2020⟩, 100, 110, "Long", 1/10⟩,
       ⟨⟨2, 2020⟩, ⟨3, 2020⟩, 100, 95, "Long", -1/20⟩] =
      (((1/10 : ℚ) / qabs (-1/20) : ℚ) : WithTop ℚ) := by
  constructor
  · exact (c8_profit_factor_policy []).1 rfl
  · have h := (c8_profit_factor_policy
      [⟨⟨0, 2020⟩, ⟨1, 2020⟩, 100, 110, "Long", 1/10⟩,
       ⟨⟨2, 2020⟩, ⟨3, 2020⟩, 100, 95, "Long", -1/20⟩]).2.2.2
      ⟨⟨⟨2, 2020⟩, ⟨3, 2020⟩, 100, 95, "Long", -1/20⟩, by norm_num, by norm_num⟩
    rw [h]
    norm_num [List.filter]

lemma cummaxVals_getD (t : List ℚ) : ∀ (m : ℚ) (i : ℕ), i < t.length →
    (cummaxVals m t).getD i 0 = (t.take (i + 1)).foldl max m := by
  induction t with
  | nil => intro m i h; simp at h
  | cons x t' ih =>
    intro m i h
    cases i with
    | zero => simp [cummaxVals]
    | succ j =>
      simp only [cummaxVals, List.getD_cons_succ, List.take_succ_cons,
        List.foldl_cons]
      exact ih (max m x) j (by simpa using h)

lemma cummax_getD (l : List ℚ) (i : ℕ) (h : i < l.length) :
    (cummax l).getD i 0 = (l.take (i + 1)).foldl max (l.getD 0 0) := by
  cases l with
  | nil => simp at h
  | cons x t =>
    cases i with
    | zero => simp [cummax]
    | succ j =>
      simp only [cummax, List.getD_cons_succ, List.getD_cons_zero,
        List.take_succ_cons, List.foldl_cons, max_self]
      exact cummaxVals_getD t x j (by simpa using h)

lemma cummaxVals_of_chain (t : List ℚ) : ∀ (m : ℚ),
    List.Chain' (· ≤ ·) (m :: t) → cummaxVals m t = t := by
  induction t with
  | nil => intro m _; rfl
  | cons x t' ih =>
    intro m hch
    have hmx : m ≤ x := (List.chain'_cons.mp hch).1
    have := ih x (List.chain'_cons.mp hch).2
    simp [cummaxVals, max_eq_right hmx, this]

lemma cummax_of_chain (l : List ℚ) (h : List.Chain' (· ≤ ·) l) :
    cummax l = l := by
  cases l with
  | nil => rfl
  | cons x t => simp [cummax, cummaxVals_of_chain t x h]

lemma drawdownList_of_chain (l : List ℚ) (h : List.Chain' (· ≤ ·) l) :
    drawdownList l = l.map (fun _ => 0) := by
  unfold drawdownList
  rw [cummax_of_chain l h]
  induction l with
  | nil => rfl
  | cons x t ih =>
    simp only [List.zipWith_cons_cons, List.map_cons, sub_self, zero_div]
    rw [ih (List.chain'_cons'.mp h).2]

lemma foldl_min_zero (t : List ℚ) (h : ∀ x ∈ t, x = (0 : ℚ)) :
    t.foldl min (0 : ℚ) = 0 := by
  induction t with
  | nil => rfl
  | cons x t' ih =>
    rw [List.foldl_cons, h x (by simp), min_self]
    exact ih (fun y hy => h y (by simp [hy]))

/-- C9 (amended): the yearly maximum drawdown is the minimum of the
drawdown series recomputed against the running maximum of that year's own
equity slice (the peak resets at the year boundary); consequently a year
whose equity never dips below its running intra-year peak — an equity
slice that is non-decreasing — has yearly max drawdown exactly 0.  (The
positivity hypothesis keeps the rational embedding on the domain where it
agrees with float pandas.) -/
theorem c9_yearly_drawdown_amended (returns : List (Option ℚ))
    (equity : List ℚ) (index : List Timestamp) (ppy : ℕ) (y : ℤ) :
    ((calculate_yearly_metrics returns equity index ppy).yearly_max_drawdown y =
      listMin (drawdownList (sliceByYear index equity y))) ∧
    (∀ i, i < (sliceByYear index equity y).length →
      (drawdownList (sliceByYear index equity y)).getD i 0 =
        ((sliceByYear index equity y).getD i 0 -
          (((sliceByYear index equity y).take (i + 1)).foldl max
            ((sliceByYear index equity y).getD 0 0))) /
        (((sliceByYear index equity y).take (i + 1)).foldl max
          ((sliceByYear index equity y).getD 0 0))) ∧
    (List.Chain' (· ≤ ·) (sliceByYear index equity y) →
      (∀ e ∈ sliceByYear index equity y, 0 < e) →
      sliceByYear index equity y ≠ [] →
      (calculate_yearly_metrics returns equity index ppy).yearly_max_drawdown y =
        some 0) := by
  refine ⟨rfl, ?_, ?_⟩
  · intro i hi
    unfold drawdownList
    rw [zipWith_getD _ _ _ i hi (by rw [cummax_length]; exact hi) 0 0 0,
      cummax_getD _ i hi]
  · intro hch _ hne
    show listMin (drawdownList (sliceByYear index equity y)) = some 0
    rw [drawdownList_of_chain _ hch]
    cases hsl : sliceByYear index equity y with
    | nil => exact absurd hsl hne
    | cons e es =>
      simp only [List.map_cons, listMin]
      rw [foldl_min_zero]
      · intro x hx
        obtain ⟨u, -, hux⟩ := List.mem_map.mp hx
        exact hux.symm

/-- C9 witness: the theorem applied to a two-point non-decreasing
single-year equity curve. -/
theorem c9_yearly_drawdown_witness :
    (calculate_yearly_metrics [none, some 1] [1, 2] [⟨0, 2020⟩, ⟨1, 2020⟩]
      365).yearly_max_drawdown 2020 = some 0 :=
  (c9_yearly_drawdown_amended [none, some 1] [1, 2] [⟨0, 2020⟩, ⟨1, 2020⟩]
    365 2020).2.2
    (by norm_num [sliceByYear, List.filter])
    (by norm_num [sliceByYear, List.filter])
    (by simp [sliceByYear, List.filter])

/-- C9 counterexample: a year whose equity (`[1, 2, 3/2]`) never dips
below its starting peak `1` still has a strictly negative yearly max
drawdown (`-1/4`, from the dip below the later intra-year peak `2`), so
"never dips below its own starting peak ⇒ yearly max drawdown 0" fails as
stated. -/
theorem c9_yearly_drawdown_counterexample :
    (calculate_yearly_metrics [none, some 1, some (-1/4)]
      ([1, 2, 3/2] : List ℚ) [⟨0, 2020⟩, ⟨1, 2020⟩, ⟨2, 2020⟩]
      365).yearly_max_drawdown 2020 = some (-1/4) ∧
    (∀ e ∈ sliceByYear [⟨0, 2020⟩, ⟨1, 2020⟩, ⟨2, 2020⟩]
        ([1, 2, 3/2] : List ℚ) 2020,
      (sliceByYear [⟨0, 2020⟩, ⟨1, 2020⟩, ⟨2, 2020⟩]
        ([1, 2, 3/2] : List ℚ) 2020).getD 0 0 ≤ e) ∧
    ((-1/4 : ℚ) ≠ 0) := by
  refine ⟨?_, ?_, by norm_num⟩
  · norm_num [calculate_yearly_metrics, sliceByYear, List.filter,
      drawdownList, cummax, cummaxVals, listMin, List.foldl, min_def]
  · norm_num [sliceByYear, List.filter]

/-- C1 (amended): on prices `[100, 110, 99, 99]`, positions
`[0, 1, 1, 0]`, cost `0`, the reconstructor emits exactly one Long trade,
entered at the close `110` of the bar (`t = 1`) where the position first
becomes 1, exited at `99` at `t = 3`, with `pnl = (99 - 110)/110 = -1/10`.
The one-bar lag shifts return attribution, not the recorded entry price. -/
theorem c1_trade_scenario_amended :
    identify_trades (rowsOf
      [⟨0, 2020⟩, ⟨1, 2020⟩, ⟨2, 2020⟩, ⟨3, 2020⟩]
      [100, 110, 99, 99] [0, 1, 1, 0]) =
    [{ entry_time := ⟨1, 2020⟩, exit_time := ⟨3, 2020⟩, entry_price := 110,
       exit_price := 99, direction := "Long", pnl := -1/10 }] := by
  norm_num [identify_trades, rowsOf, buildRows, diffAbs, diffVals, qabs,
    changePred, tradeStep, initState, List.filter, List.foldl, List.isEmpty]

/-- C1 counterexample: in the claimed scenario the emitted trade records
entry price `110`, not `100`, and its pnl is `-1/10`, which is not within
`0.01` of the claimed `≈ -0.01`. -/
theorem c1_trade_scenario_counterexample :
    ((identify_trades (rowsOf
        [⟨0, 2020⟩, ⟨1, 2020⟩, ⟨2, 2020⟩, ⟨3, 2020⟩]
        [100, 110, 99, 99] [0, 1, 1, 0])).map Trade.entry_price = [110] ∧
      (identify_trades (rowsOf
        [⟨0, 2020⟩, ⟨1, 2020⟩, ⟨2, 2020⟩, ⟨3, 2020⟩]
        [100, 110, 99, 99] [0, 1, 1, 0])).map Trade.pnl = [-1/10]) ∧
    (110 : ℚ) ≠ 100 ∧ ¬ (qabs (-1/10 - -1/100) ≤ 1/100) := by
  refine ⟨⟨?_, ?_⟩, by norm_num, by norm_num [qabs]⟩ <;>
    norm_num [identify_trades, rowsOf, buildRows, diffAbs, diffVals, qabs,
      changePred, tradeStep, initState, List.filter, List.foldl, List.isEmpty]

/-- C3 counterexample: the first effective position is `NaN` (missing),
not zero — `shift(1)` introduces a missing value that downstream
aggregations skip, which is observably different from a zero entry. -/
theorem c3_effective_position_counterexample :
    (effectivePosition [0, 1] (some [1, 1])).getD 0 (some 37) = none ∧
    (none : Option ℚ) ≠ some 0 :=
  ⟨rfl, by simp⟩

/-- C3 (amended): for `i ≥ 1` the effective position applied at bar `i`
is exactly `position[i-1] * size[i-1]`; the first slot is `NaN`
(missing), not zero; and each strategy return is the NaN-propagating
product of the lagged effective position with the same bar's period
return — no same-bar position information enters. -/
theorem c3_effective_position_lag_amended (ps : List ℤ) (sz : List ℚ)
    (i : ℕ) (hlen : sz.length = ps.length) (h1 : 1 ≤ i) (hi : i < ps.length) :
    (effectivePosition ps (some sz)).getD i (some 0) =
      some ((ps.getD (i - 1) 0 : ℚ) * sz.getD (i - 1) 0) ∧
    (effectivePosition ps (some sz)).getD 0 (some 37) = none ∧
    (∀ (cs : List ℚ), cs.length = ps.length →
      (List.zipWith omul (effectivePosition ps (some sz))
        (pctChange cs)).getD i none =
        omul ((effectivePosition ps (some sz)).getD i none)
          ((pctChange cs).getD i none)) := by
  have hL : (List.zipWith (fun (p : ℤ) (s : ℚ) => (p : ℚ) * s) ps sz).length =
      ps.length := by
    rw [List.length_zipWith]
    omega
  refine ⟨?_, ?_, ?_⟩
  · obtain ⟨j, rfl⟩ : ∃ j, i = j + 1 := ⟨i - 1, by omega⟩
    show (shift1 (List.zipWith (fun (p : ℤ) (s : ℚ) => (p : ℚ) * s) ps sz)).getD
      (j + 1) (some 0) = _
    rw [shift1_getD _ j (by rw [hL]; exact hi) (some 0),
      zipWith_getD _ _ _ j (by omega) (by omega) 0 0 0]
    norm_num
  · cases ps with
    | nil => simp at hi
    | cons p pt =>
      cases sz with
      | nil => simp at hlen
      | cons s st => rfl
  · intro cs hcs
    have he : (effectivePosition ps (some sz)).length = ps.length := by
      show (shift1 _).length = _
      rw [shift1_length, hL]
    exact zipWith_getD omul _ _ i (by rw [he]; exact hi)
      (by rw [pctChange_length, hcs]; exact hi) none none none

/-- C3 witness: the theorem applied to a two-bar input with half sizing. -/
theorem c3_effective_position_witness :
    (effectivePosition [0, 1] (some [1/2, 1/2])).getD 1 (some 0) =
      some ((([0, 1] : List ℤ).getD 0 0 : ℚ) * ([1/2, 1/2] : List ℚ).getD 0 0) :=
  (c3_effective_position_lag_amended [0, 1] [1/2, 1/2] 1 rfl (le_refl 1)
    (by norm_num)).1
